import Mathlib

/-!
Verification development for the face-attendance system
(`app.py`, `attendance_manager.py`, `database.py`).

The development shallowly embeds the three core components:

* the matcher `compare_faces` and the per-frame identity deduplication of
  the `/api/mark_attendance` route (`app.py`),
* the punch-in / punch-out ledger state machine
  `AttendanceManager.mark_attendance` backed by the SQLite `attendance`
  table (`attendance_manager.py`),
* the daily report exporter `AttendanceManager.save_to_excel`
  (`attendance_manager.py`),
* the registration flow `register_employee` (`app.py`).

Times of day are embedded as seconds-since-midnight naturals (the code
stores ISO time strings, which are in order-preserving bijection with the
encoded values).  Cosine similarity over floating-point embedding vectors
is kept abstract: a similarity oracle `sim` is passed as a parameter, and
embeddings are opaque identifiers.  Similarity values are rationals, which
faithfully support every comparison the code performs.
-/

namespace FaceAttendance

/-! ## Matcher (`app.py`, `compare_faces`) -/

/-- Opaque identifier standing for one extracted face embedding vector. -/
abbrev Emb := Nat

/-- One value of `employees_cache`: the data stored per registered employee
(`app.py`, `load_employees_to_cache` / `register_employee`). -/
structure GalleryEntry where
  name : String
  department : String
  position : String
  emb : Emb
deriving DecidableEq, Repr

/-- One element of the `matches` list built by `compare_faces`. -/
structure FaceMatch where
  employeeId : String
  name : String
  similarity : ℚ
  department : String
  position : String
deriving DecidableEq, Repr

/-- Body of the inner `for emp_id, emp_data in employees_cache.items()` loop
of `compare_faces`: update `(best_similarity, best_match)` when the
similarity of the current gallery entry strictly exceeds the best so far. -/
def bestStep (sim : Emb → Emb → ℚ) (e : Emb) (acc : ℚ × Option FaceMatch)
    (p : String × GalleryEntry) : ℚ × Option FaceMatch :=
  let similarity := sim e p.2.emb
  if similarity > acc.1 then
    (similarity,
      some ⟨p.1, p.2.name, similarity, p.2.department, p.2.position⟩)
  else acc

/-- The inner loop of `compare_faces`: fold over the gallery starting from
`best_similarity = 0`, `best_match = None`. -/
def bestOf (sim : Emb → Emb → ℚ) (gallery : List (String × GalleryEntry))
    (e : Emb) : ℚ × Option FaceMatch :=
  gallery.foldl (bestStep sim e) (0, none)

/-- The acceptance test after the inner loop:
`if best_match and best_match['similarity'] > threshold`. -/
def acceptMatch (threshold : ℚ) (b : ℚ × Option FaceMatch) : List FaceMatch :=
  match b.2 with
  | some m => if m.similarity > threshold then [m] else []
  | none => []

/-- `compare_faces(new_embeddings, threshold)`: for each face embedding,
find the best gallery entry and append it to `matches` when its similarity
strictly exceeds the threshold. -/
def compareFaces (sim : Emb → Emb → ℚ) (gallery : List (String × GalleryEntry))
    (newEmbeddings : List Emb) (threshold : ℚ) : List FaceMatch :=
  newEmbeddings.foldl (fun ms e => ms ++ acceptMatch threshold (bestOf sim gallery e)) []

/-! ## Per-frame deduplication (`app.py`, route `mark_attendance`) -/

/-- One iteration of the `for match in matches` dedup loop: skip the match
when its employee id is in `seen_ids`, otherwise append it and record the
id. -/
def dedupStep (acc : List FaceMatch × List String) (m : FaceMatch) :
    List FaceMatch × List String :=
  if m.employeeId ∈ acc.2 then acc else (acc.1 ++ [m], acc.2 ++ [m.employeeId])

/-- The `unique_matches` list computed by the `/api/mark_attendance` route. -/
def uniqueMatches (ms : List FaceMatch) : List FaceMatch :=
  (ms.foldl dedupStep ([], [])).1

/-- Structural twin of the dedup loop, recursing on the input list while
carrying the set of already-seen employee ids; used to reason about
`uniqueMatches` by induction. -/
def dedupFrom : List FaceMatch → List String → List FaceMatch
  | [], _ => []
  | m :: rest, seen =>
    if m.employeeId ∈ seen then dedupFrom rest seen
    else m :: dedupFrom rest (seen ++ [m.employeeId])

/-! ## Attendance ledger (`attendance_manager.py`, `mark_attendance`) -/

/-- One row of the SQLite `attendance` table.  `rowId` is the
`INTEGER PRIMARY KEY AUTOINCREMENT` id, `createdAt` the
`created_at TIMESTAMP DEFAULT CURRENT_TIMESTAMP` column.  Times of day are
seconds since midnight. -/
structure Session where
  rowId : Nat
  employeeId : String
  name : String
  date : String
  timeIn : Nat
  timeOut : Option Nat
  status : String
  createdAt : Nat
deriving DecidableEq, Repr

/-- The whole `attendance` table, in insertion (rowid) order. -/
abbrev Ledger := List Session

/-- One element of the `employee_data_list` argument of `mark_attendance`
(built from a deduplicated face match by the route). -/
structure Event where
  employeeId : String
  name : String
  department : String
  position : String
deriving DecidableEq, Repr

/-- One element of the `attendance_records` list returned by
`mark_attendance`. -/
structure AttendanceRecord where
  employeeId : String
  name : String
  date : String
  timeIn : Nat
  timeOut : Option Nat
  status : String
deriving DecidableEq, Repr

/-- The rows matching `WHERE employee_id = ? AND date = ?`. -/
def filterED (l : Ledger) (emp d : String) : Ledger :=
  l.filter fun s => s.employeeId = emp ∧ s.date = d

/-- Comparison step of `ORDER BY created_at DESC LIMIT 1`: of two rows,
keep the one with the later `created_at`; on equal timestamps keep the
later-inserted row (SQLite's `CURRENT_TIMESTAMP` has one-second
resolution, and rows inserted later in the same second carry the same
timestamp, so insertion order is the effective tie-break). -/
def laterByCreated (a s : Session) : Session :=
  if a.createdAt ≤ s.createdAt then s else a

/-- One step of scanning for the row with the latest `created_at`. -/
def mrStep (acc : Option Session) (s : Session) : Option Session :=
  match acc with
  | none => some s
  | some a => some (laterByCreated a s)

/-- The row selected by
`SELECT id, time_in, time_out ... ORDER BY created_at DESC LIMIT 1`,
`none` when the employee has no row for the date. -/
def mostRecent? (l : Ledger) : Option Session :=
  l.foldl mrStep none

/-- Whether an `INSERT` of a new session would violate the
`UNIQUE(employee_id, date, time_in)` constraint of the `attendance`
table. -/
def hasClash (l : Ledger) (emp d : String) (tin : Nat) : Bool :=
  l.any fun s => s.employeeId = emp && s.date = d && s.timeIn = tin

/-- The row inserted by
`INSERT INTO attendance (employee_id, name, date, time_in, status)`:
`time_out` is left NULL and `status` defaults to `'Present'`. -/
def newSession (e : Event) (today : String) (now clk rid : Nat) : Session :=
  ⟨rid, e.employeeId, e.name, today, now, none, "Present", clk⟩

/-- Effect of the punch-in `INSERT` plus the record appended to
`attendance_records` in the same branch; fails (SQLite `IntegrityError`)
when the uniqueness constraint is violated. -/
def insertSession (e : Event) (today : String) (now clk : Nat) (l : Ledger) :
    Except Unit (Ledger × AttendanceRecord) :=
  if hasClash l e.employeeId today now then .error ()
  else .ok (l ++ [newSession e today now clk l.length],
    ⟨e.employeeId, e.name, today, now, none, "Present"⟩)

/-- Effect on one table row of
`UPDATE attendance SET time_out = ? WHERE id = ?`. -/
def closeSession (s : Session) (now : Nat) (t : Session) : Session :=
  if t.rowId = s.rowId then { t with timeOut := some now } else t

/-- One iteration of the `for emp in employee_data_list` loop of
`AttendanceManager.mark_attendance`: look up the most recent session of
the employee for today, then punch out (most recent open), punch in again
(most recent closed) or punch in (no session). -/
def processEvent (e : Event) (today : String) (now clk : Nat) (l : Ledger) :
    Except Unit (Ledger × AttendanceRecord) :=
  match mostRecent? (filterED l e.employeeId today) with
  | some s =>
    if s.timeOut = none then
      .ok (l.map (closeSession s now),
        ⟨e.employeeId, e.name, today, s.timeIn, some now, "Present"⟩)
    else insertSession e today now clk l
  | none => insertSession e today now clk l

/-- The whole loop of `mark_attendance`, threading the uncommitted table
state through the events of the batch and collecting the emitted records
in order. -/
def markAttendanceE : List Event → String → Nat → Nat → Ledger →
    Except Unit (Ledger × List AttendanceRecord)
  | [], _, _, _, l => .ok (l, [])
  | e :: es, today, now, clk, l =>
    match processEvent e today now clk l with
    | .error u => .error u
    | .ok (l1, r) =>
      match markAttendanceE es today now clk l1 with
      | .error u => .error u
      | .ok (l2, rs) => .ok (l2, r :: rs)

/-- Durable effect of one `AttendanceManager.mark_attendance` call:
`conn.commit()` runs only after the loop finishes, so a constraint
violation aborts the whole batch and leaves the table unchanged (the
route catches the exception and returns a failure response). -/
def markAttendance (events : List Event) (today : String) (now clk : Nat)
    (l : Ledger) : Ledger × List AttendanceRecord :=
  match markAttendanceE events today now clk l with
  | .ok p => p
  | .error _ => (l, [])

/-- The batch clock bound: every `created_at` already in the table is at
most the timestamp the next batch will stamp on its inserts
(`CURRENT_TIMESTAMP` is nondecreasing). -/
def ClockLE (clk : Nat) (l : Ledger) : Prop :=
  ∀ s ∈ l, s.createdAt ≤ clk

/-- Ledger states reachable from the empty table by `mark_attendance`
batches stamped with nondecreasing creation timestamps. -/
inductive Reachable : Ledger → Prop where
  | empty : Reachable []
  | step (events : List Event) (today : String) (now clk : Nat) (l : Ledger) :
      Reachable l → ClockLE clk l →
      Reachable (markAttendance events today now clk l).1

/-- The open sessions (rows with `time_out IS NULL`) of one employee on
one date. -/
def openSessions (l : Ledger) (emp d : String) : Ledger :=
  (filterED l emp d).filter fun s => s.timeOut = none

/-- The claimed invariant: at most one open session per employee per day. -/
def AtMostOneOpen (l : Ledger) : Prop :=
  ∀ emp d, (openSessions l emp d).length ≤ 1

/-- Auxiliary invariant: each row's `rowId` is its position in the table
(`AUTOINCREMENT` primary key, rows are never deleted). -/
def RowIdOk (l : Ledger) : Prop :=
  ∀ i (h : i < l.length), (l.get ⟨i, h⟩).rowId = i

/-- Auxiliary invariant: any open session of a group is the session the
`ORDER BY created_at DESC LIMIT 1` query selects for that group. -/
def OpenIsMostRecent (l : Ledger) : Prop :=
  ∀ emp d s, s ∈ filterED l emp d → s.timeOut = none →
    mostRecent? (filterED l emp d) = some s

/-- Inductive invariant of the ledger. -/
def LedgerInv (l : Ledger) : Prop :=
  RowIdOk l ∧ OpenIsMostRecent l

/-! ## Report exporter (`attendance_manager.py`, `save_to_excel`) -/

/-- Two-digit decimal rendering of one time component. -/
def fmt2 (n : Nat) : String :=
  if n < 10 then "0" ++ toString n else toString n

/-- `HH:MM:SS` rendering of a number of seconds (the `%H:%M:%S` /
`time(...)` format used throughout the exporter). -/
def fmtHMS (n : Nat) : String :=
  fmt2 (n / 3600) ++ ":" ++ fmt2 (n % 3600 / 60) ++ ":" ++ fmt2 (n % 60)

/-- The `duration` column: blank when `time_out` is NULL, otherwise the
string pandas produces for the timedelta `time_out - time_in`
(`str(x).split()[-1]`).  For the nonnegative differences produced by
in-order punches this is the plain `HH:MM:SS` of the difference; a
negative timedelta would render as `-1 days +HH:MM:SS`, whose last word
keeps the leading `+`. -/
def durationCell (tin : Nat) : Option Nat → String
  | none => ""
  | some tout =>
    if tin ≤ tout then fmtHMS (tout - tin)
    else "+" ++ fmtHMS (86400 - (tin - tout))

/-- One row of the generated worksheet. -/
structure ReportRow where
  employeeId : String
  name : String
  date : String
  timeIn : String
  timeOut : String
  status : String
  duration : String
deriving DecidableEq, Repr

/-- Projection of one table row to one worksheet row (`time_in` and
`time_out` formatted `%H:%M:%S`, NULL `time_out` rendered blank). -/
def rowOfSession (s : Session) : ReportRow :=
  ⟨s.employeeId, s.name, s.date, fmtHMS s.timeIn,
    (match s.timeOut with
     | some o => fmtHMS o
     | none => ""),
    s.status, durationCell s.timeIn s.timeOut⟩

/-- Lexicographic (byte-order) comparison of character lists, the order
SQLite uses for TEXT columns. -/
def charListLT : List Char → List Char → Bool
  | [], [] => false
  | [], _ :: _ => true
  | _ :: _, [] => false
  | a :: as, b :: bs => if a < b then true else if b < a then false else charListLT as bs

/-- TEXT-column comparison on strings. -/
def stringLT (a b : String) : Bool := charListLT a.toList b.toList

/-- The `ORDER BY employee_id, time_in` comparison of the export query. -/
def sessionLE (a b : Session) : Bool :=
  stringLT a.employeeId b.employeeId ||
    (decide (a.employeeId = b.employeeId) && decide (a.timeIn ≤ b.timeIn))

/-- Insertion of one row into an already sorted list. -/
def insertSorted (s : Session) : Ledger → Ledger
  | [] => [s]
  | t :: ts => if sessionLE s t then s :: t :: ts else t :: insertSorted s ts

/-- Deterministic sort realising the `ORDER BY` of the export query.
Within one date, `(employee_id, time_in)` is a key (the table's
uniqueness constraint), so any `ORDER BY employee_id, time_in` result
coincides with this one. -/
def sortSessions : Ledger → Ledger
  | [] => []
  | s :: ss => insertSorted s (sortSessions ss)

/-- The worksheet content `save_to_excel` derives for a date: all rows
`WHERE date = ?`, sorted, projected to report rows. -/
def exportRows (l : Ledger) (d : String) : List ReportRow :=
  (sortSessions (l.filter fun s => s.date = d)).map rowOfSession

/-- Well-formed table rows: a closed session's `time_out` is not earlier
than its `time_in` (punch-out always happens after punch-in on a
forward-running clock). -/
def wellFormedB (l : Ledger) : Bool :=
  l.all fun s =>
    match s.timeOut with
    | some o => decide (s.timeIn ≤ o)
    | none => true

/-- `attendance_YYYY-MM-DD.xlsx`, the deterministic artifact name. -/
def reportFileName (d : String) : String :=
  "attendance_" ++ d ++ ".xlsx"

/-- The `attendance_logs` folder, as a map from file name to sheet rows. -/
def ArtifactStore := String → Option (List ReportRow)

/-- Durable effect of `save_to_excel`: rebuild today's rows from the
table and overwrite the artifact for that date. -/
def saveToExcel (store : ArtifactStore) (l : Ledger) (d : String) :
    ArtifactStore :=
  fun f => if f = reportFileName d then some (exportRows l d) else store f

/-! ## Registration (`app.py`, `register_employee`) -/

/-- Characters removed from both ends by Python's `str.strip()`. -/
def stripChars (cs : List Char) : List Char :=
  ((cs.dropWhile Char.isWhitespace).reverse.dropWhile Char.isWhitespace).reverse

/-- Python `str.strip()` as applied to the posted form fields. -/
def pyStrip (s : String) : String := String.mk (stripChars s.toList)

/-- Characters kept by `re.sub(r'[^\w\s-]', '', name)` (ASCII view of the
`\w` and `\s` classes). -/
def keepChar (c : Char) : Bool :=
  c.isAlphanum || c == '_' || c.isWhitespace || c == '-'

/-- Effect of `re.sub(r'[-\s]+', '_', ...)`: replace each maximal run of
hyphens and whitespace by a single underscore.  The Boolean argument
records whether the previous character belonged to such a run. -/
def collapseSepGo : Bool → List Char → List Char
  | _, [] => []
  | prevSep, c :: rest =>
    if c == '-' || c.isWhitespace then
      (if prevSep then [] else ['_']) ++ collapseSepGo true rest
    else c :: collapseSepGo false rest

/-- `sanitize_filename(name)`. -/
def sanitizeFilename (name : String) : String :=
  String.mk ((collapseSepGo false (name.toList.filter keepChar)).map Char.toLower)

/-- The candidate file names tried by the `while os.path.exists(...)` loop:
`faces/<base><ext>` first, then `faces/<base>_<counter><ext>` for
`counter = 1, 2, ...`. -/
def candidatePath (base ext : String) (i : Nat) : String :=
  if i = 0 then "faces/" ++ base ++ ext
  else "faces/" ++ base ++ "_" ++ Nat.repr i ++ ext

/-- Index at which the `while os.path.exists(...)` loop stops: the first
candidate not already present. -/
def freshIndex (files : List String) (base ext : String) : Nat :=
  match (List.range (files.length + 1)).find?
      (fun i => !(files.contains (candidatePath base ext i))) with
  | some i => i
  | none => files.length + 1

/-- The path the loop settles on. -/
def freshPath (files : List String) (base ext : String) : String :=
  candidatePath base ext (freshIndex files base ext)

/-- One row of the `employees` table (`database.py`). -/
structure EmployeeRow where
  employeeId : String
  name : String
  department : String
  position : String
  faceImagePath : String
  faceEncodingPath : String
deriving DecidableEq, Repr

/-- One `employees_cache` entry as written by `register_employee`. -/
structure CacheEntry where
  employeeId : String
  name : String
  department : String
  position : String
  emb : List ℚ
deriving DecidableEq, Repr

/-- Persistent state touched by registration: the `faces` folder (file
paths), the `employees` table and the in-memory cache. -/
structure RegState where
  files : List String
  employees : List EmployeeRow
  cache : List (String × CacheEntry)
deriving DecidableEq, Repr

/-- `register_employee` (`app.py`).  `decode` stands for `decode_image`
(base64 → frame) and `extract` for `extract_face_embedding` (DeepFace with
`enforce_detection=True`; `none` when no face is found).  Returns the new
state, the success flag and the message of the JSON response. -/
def registerEmployee (decode : String → Option Nat)
    (extract : String → Option (List ℚ))
    (employeeIdRaw nameRaw departmentRaw positionRaw imageData : String)
    (st : RegState) : RegState × Bool × String :=
  let employeeId := pyStrip employeeIdRaw
  let name := pyStrip nameRaw
  let department := pyStrip departmentRaw
  let position := pyStrip positionRaw
  if employeeId = "" || name = "" || imageData = "" then
    (st, false, "Missing required fields")
  else if st.employees.any (fun emp => emp.employeeId == employeeId) then
    (st, false, "Employee ID already exists")
  else
    match decode imageData with
    | none => (st, false, "Invalid image")
    | some _frame =>
      let base := employeeId ++ "_" ++ sanitizeFilename name
      let facePath := freshPath st.files base ".jpg"
      let files1 := st.files ++ [facePath]
      match extract facePath with
      | none =>
        let files2 := if files1.contains facePath then files1.erase facePath
          else files1
        ({ st with files := files2 }, false,
          "No face detected. Please ensure face is clearly visible.")
      | some emb =>
        let embPath := freshPath files1 base ".npy"
        let files2 := files1 ++ [embPath]
        ({ files := files2,
           employees := st.employees ++
             [⟨employeeId, name, department, position, facePath, embPath⟩],
           cache := st.cache ++
             [(employeeId, ⟨employeeId, name, department, position, emb⟩)] },
          true, "Employee " ++ name ++ " registered successfully!")

/-- Decimal value of a digit character list, accumulating from `a`; used
to invert `Nat.repr`. -/
def valFrom (a : Nat) (ds : List Char) : Nat :=
  ds.foldl (fun x c => x * 10 + (c.toNat - 48)) a

/-! ## Concrete instances used to exercise the theorems -/

/-- Example similarity oracle: embedding `5` scores `2` against gallery
embedding `0`, `1` against gallery embedding `1`, `0` elsewhere. -/
def simEx : Emb → Emb → ℚ :=
  fun a b => if a == 5 && b == 0 then 2 else if a == 5 && b == 1 then 1 else 0

/-- Example gallery with two registered employees. -/
def galleryEx : List (String × GalleryEntry) :=
  [("E1", ⟨"Alice", "D", "P", 0⟩), ("E2", ⟨"Bob", "D", "P", 1⟩)]

/-- The match the example oracle produces for embedding `5`. -/
def matchEx : FaceMatch := ⟨"E1", "Alice", 2, "D", "P"⟩

/-- Example match list in which employee `E1` is detected twice. -/
def matchesEx : List FaceMatch :=
  [⟨"E1", "Alice", 2, "D", "P"⟩, ⟨"E2", "Bob", 1, "D", "P"⟩,
   ⟨"E1", "Alice", 3, "D", "P"⟩]

/-- Example event for employee `E1`. -/
def eventEx : Event := ⟨"E1", "Alice", "D", "P"⟩

/-- A closed morning session of `E1` created first (`created_at = 10`)
with the larger `time_in`. -/
def sessA : Session := ⟨0, "E1", "Alice", "2024-01-05", 900, some 950, "Present", 10⟩

/-- An open session of `E1` created later (`created_at = 20`) whose
`time_in` is out of order (smaller than `sessA`'s). -/
def sessB : Session := ⟨1, "E1", "Alice", "2024-01-05", 300, none, "Present", 20⟩

/-- A single open session of `E1` used to exercise the punch-out branch. -/
def sessOpen : Session := ⟨0, "E1", "Alice", "2024-01-05", 32400, none, "Present", 10⟩

/-- A one-row ledger whose session is `09:00:00`–`17:00:00`, the report
scenario of the specification. -/
def ledgerEx7 : Ledger := [⟨0, "E1", "Alice", "2024-01-05", 32400, some 61200, "Present", 10⟩]

/-- Example persistent state for the registration scenario: one face image
already stored, no registered employees. -/
def regStEx : RegState := ⟨["faces/e1_alice.jpg"], [], []⟩

end FaceAttendance

namespace FaceAttendance

/-! ## Generic list lemmas -/

theorem mem_foldl_append {α β : Type} (f : α → List β) :
    ∀ (l : List α) (acc : List β) (m : β),
      m ∈ l.foldl (fun ms e => ms ++ f e) acc ↔ m ∈ acc ∨ ∃ e ∈ l, m ∈ f e := by
  intro l
  induction l with
  | nil => intro acc m; simp
  | cons e l ih =>
    intro acc m
    simp only [List.foldl_cons, ih, List.mem_append, List.mem_cons]
    constructor
    · rintro ((h | h) | ⟨x, hx, hm⟩)
      · exact Or.inl h
      · exact Or.inr ⟨e, Or.inl rfl, h⟩
      · exact Or.inr ⟨x, Or.inr hx, hm⟩
    · rintro (h | ⟨x, (rfl | hx), hm⟩)
      · exact Or.inl (Or.inl h)
      · exact Or.inl (Or.inr hm)
      · exact Or.inr ⟨x, hx, hm⟩

/-! ## Matcher lemmas -/

theorem bestStep_inv (sim : Emb → Emb → ℚ) (e : Emb) (p : String × GalleryEntry)
    {b : ℚ} {o : Option FaceMatch}
    (h : (o = none ∧ b = 0) ∨ ∃ m, o = some m ∧ m.similarity = b ∧ 0 < b) :
    ((bestStep sim e (b, o) p).2 = none ∧ (bestStep sim e (b, o) p).1 = 0) ∨
      ∃ m, (bestStep sim e (b, o) p).2 = some m ∧
        m.similarity = (bestStep sim e (b, o) p).1 ∧ 0 < (bestStep sim e (b, o) p).1 := by
  simp only [bestStep]
  split_ifs with hgt
  · refine Or.inr ⟨_, rfl, rfl, ?_⟩
    rcases h with ⟨_, rfl⟩ | ⟨m, _, _, h3⟩
    · exact hgt
    · exact lt_trans h3 hgt
  · exact h

theorem bestStep_ub (sim : Emb → Emb → ℚ) (e : Emb) (p : String × GalleryEntry)
    (b : ℚ) (o : Option FaceMatch) :
    b ≤ (bestStep sim e (b, o) p).1 ∧ sim e p.2.emb ≤ (bestStep sim e (b, o) p).1 := by
  simp only [bestStep]
  split_ifs with hgt
  · exact ⟨le_of_lt hgt, le_refl _⟩
  · exact ⟨le_refl _, le_of_not_lt hgt⟩

theorem bestOf_fold_spec (sim : Emb → Emb → ℚ) (e : Emb) :
    ∀ (gallery : List (String × GalleryEntry)) (b : ℚ) (o : Option FaceMatch),
      ((o = none ∧ b = 0) ∨ ∃ m, o = some m ∧ m.similarity = b ∧ 0 < b) →
      ((gallery.foldl (bestStep sim e) (b, o)).2 = none ∧
          (gallery.foldl (bestStep sim e) (b, o)).1 = 0) ∨
        ∃ m, (gallery.foldl (bestStep sim e) (b, o)).2 = some m ∧
          m.similarity = (gallery.foldl (bestStep sim e) (b, o)).1 ∧
          0 < (gallery.foldl (bestStep sim e) (b, o)).1 := by
  intro gallery
  induction gallery with
  | nil =>
    intro b o h
    rcases h with ⟨h1, h2⟩ | ⟨m, h1, h2, h3⟩
    · exact Or.inl ⟨h1, h2⟩
    · exact Or.inr ⟨m, h1, h2, h3⟩
  | cons p g ih =>
    intro b o h
    simp only [List.foldl_cons]
    have hinv := bestStep_inv sim e p h
    rcases hq : bestStep sim e (b, o) p with ⟨b', o'⟩
    rw [hq] at hinv
    exact ih b' o' hinv

theorem bestOf_fold_ub (sim : Emb → Emb → ℚ) (e : Emb) :
    ∀ (gallery : List (String × GalleryEntry)) (b : ℚ) (o : Option FaceMatch),
      b ≤ (gallery.foldl (bestStep sim e) (b, o)).1 ∧
        ∀ p ∈ gallery, sim e p.2.emb ≤ (gallery.foldl (bestStep sim e) (b, o)).1 := by
  intro gallery
  induction gallery with
  | nil => intro b o; simp
  | cons q g ih =>
    intro b o
    simp only [List.foldl_cons]
    have hstep := bestStep_ub sim e q b o
    rcases hq : bestStep sim e (b, o) q with ⟨b', o'⟩
    rw [hq] at hstep
    obtain ⟨ih1, ih2⟩ := ih b' o'
    constructor
    · exact le_trans hstep.1 ih1
    · intro p hp
      rcases List.mem_cons.mp hp with rfl | hp'
      · exact le_trans hstep.2 ih1
      · exact ih2 p hp'

theorem mem_acceptMatch {t : ℚ} {b : ℚ × Option FaceMatch} {m : FaceMatch}
    (h : m ∈ acceptMatch t b) : b.2 = some m ∧ t < m.similarity := by
  rcases b with ⟨bs, _ | m'⟩
  · simp [acceptMatch] at h
  · simp only [acceptMatch] at h
    by_cases hgt : m'.similarity > t
    · rw [if_pos hgt] at h
      rcases List.mem_singleton.mp h with rfl
      exact ⟨rfl, hgt⟩
    · rw [if_neg hgt] at h
      simp at h

theorem mem_compareFaces {sim : Emb → Emb → ℚ} {gallery : List (String × GalleryEntry)}
    {embs : List Emb} {t : ℚ} {m : FaceMatch}
    (hm : m ∈ compareFaces sim gallery embs t) :
    ∃ e ∈ embs, (bestOf sim gallery e).2 = some m ∧ t < m.similarity := by
  unfold compareFaces at hm
  rcases (mem_foldl_append _ embs [] m).mp hm with h | ⟨e, he, hmem⟩
  · simp at h
  · exact ⟨e, he, mem_acceptMatch hmem⟩

/-- C1: every match `compare_faces` accepts has its best similarity
strictly above the threshold (the equality case is silently dropped, not
an error), and that similarity is an upper bound of the face's similarity
against every gallery entry. -/
theorem c1_matcher_strict_threshold (sim : Emb → Emb → ℚ)
    (gallery : List (String × GalleryEntry)) (embs : List Emb) (t : ℚ)
    (m : FaceMatch) (hm : m ∈ compareFaces sim gallery embs t) :
    t < m.similarity ∧ ∃ e ∈ embs, ∀ p ∈ gallery, sim e p.2.emb ≤ m.similarity := by
  obtain ⟨e, he, hbest, hgt⟩ := mem_compareFaces hm
  refine ⟨hgt, e, he, ?_⟩
  intro p hp
  have hspec := bestOf_fold_spec sim e gallery 0 none (Or.inl ⟨rfl, rfl⟩)
  have hub := (bestOf_fold_ub sim e gallery 0 none).2 p hp
  unfold bestOf at hbest
  rcases hspec with ⟨h1, _⟩ | ⟨m', h1, h2, _⟩
  · rw [hbest] at h1; cases h1
  · rw [hbest] at h1
    cases h1
    rw [h2]
    exact hub

theorem c1_matcher_strict_threshold_witness :
    (1 : ℚ) < matchEx.similarity ∧
      ∃ e ∈ [5], ∀ p ∈ galleryEx, simEx e p.2.emb ≤ matchEx.similarity :=
  c1_matcher_strict_threshold simEx galleryEx [5] 1 matchEx (by decide)

/-- C10: because best-match selection starts from a best similarity of
`0` and only updates on strict improvement, every match `compare_faces`
returns has strictly positive similarity, whatever the threshold
(including thresholds at or below zero). -/
theorem c10_match_similarity_positive (sim : Emb → Emb → ℚ)
    (gallery : List (String × GalleryEntry)) (embs : List Emb) (t : ℚ)
    (m : FaceMatch) (hm : m ∈ compareFaces sim gallery embs t) :
    0 < m.similarity := by
  obtain ⟨e, _, hbest, _⟩ := mem_compareFaces hm
  have hspec := bestOf_fold_spec sim e gallery 0 none (Or.inl ⟨rfl, rfl⟩)
  unfold bestOf at hbest
  rcases hspec with ⟨h1, _⟩ | ⟨m', h1, h2, h3⟩
  · rw [hbest] at h1; cases h1
  · rw [hbest] at h1
    cases h1
    rw [h2]
    exact h3

theorem c10_match_similarity_positive_witness : (0 : ℚ) < matchEx.similarity :=
  c10_match_similarity_positive simEx galleryEx [5] (-5) matchEx (by decide)

/-! ## Deduplication lemmas -/

theorem dedup_foldl_eq :
    ∀ (ms : List FaceMatch) (kept : List FaceMatch) (seen : List String),
      (ms.foldl dedupStep (kept, seen)).1 = kept ++ dedupFrom ms seen := by
  intro ms
  induction ms with
  | nil => intro kept seen; simp [dedupFrom]
  | cons m rest ih =>
    intro kept seen
    simp only [List.foldl_cons, dedupStep, dedupFrom]
    by_cases hmem : m.employeeId ∈ seen
    · rw [if_pos hmem, if_pos hmem, ih]
    · rw [if_neg hmem, if_neg hmem, ih]
      simp

theorem uniqueMatches_eq_dedupFrom (ms : List FaceMatch) :
    uniqueMatches ms = dedupFrom ms [] := by
  unfold uniqueMatches
  rw [dedup_foldl_eq ms [] []]
  simp

theorem dedupFrom_sublist :
    ∀ (ms : List FaceMatch) (seen : List String), (dedupFrom ms seen).Sublist ms := by
  intro ms
  induction ms with
  | nil => intro seen; simp [dedupFrom]
  | cons m rest ih =>
    intro seen
    simp only [dedupFrom]
    by_cases hmem : m.employeeId ∈ seen
    · rw [if_pos hmem]
      exact List.Sublist.cons m (ih seen)
    · rw [if_neg hmem]
      exact List.Sublist.cons₂ m (ih (seen ++ [m.employeeId]))

theorem dedupFrom_not_seen :
    ∀ (ms : List FaceMatch) (seen : List String) (m : FaceMatch),
      m ∈ dedupFrom ms seen → m.employeeId ∉ seen := by
  intro ms
  induction ms with
  | nil => intro seen m h; simp [dedupFrom] at h
  | cons m0 rest ih =>
    intro seen m h
    simp only [dedupFrom] at h
    by_cases hmem : m0.employeeId ∈ seen
    · rw [if_pos hmem] at h
      exact ih seen m h
    · rw [if_neg hmem] at h
      rcases List.mem_cons.mp h with rfl | h'
      · exact hmem
      · have := ih (seen ++ [m0.employeeId]) m h'
        intro hc
        exact this (List.mem_append_left _ hc)

theorem dedupFrom_keys_nodup :
    ∀ (ms : List FaceMatch) (seen : List String),
      ((dedupFrom ms seen).map (fun m => m.employeeId)).Nodup := by
  intro ms
  induction ms with
  | nil => intro seen; simp [dedupFrom]
  | cons m0 rest ih =>
    intro seen
    simp only [dedupFrom]
    by_cases hmem : m0.employeeId ∈ seen
    · rw [if_pos hmem]
      exact ih seen
    · rw [if_neg hmem]
      simp only [List.map_cons, List.nodup_cons]
      constructor
      · intro hc
        rcases List.mem_map.mp hc with ⟨m, hm, hkey⟩
        have := dedupFrom_not_seen rest (seen ++ [m0.employeeId]) m hm
        exact this (List.mem_append_right _ (by simp [hkey]))
      · exact ih (seen ++ [m0.employeeId])

theorem dedupFrom_find :
    ∀ (ms : List FaceMatch) (seen : List String) (m' : FaceMatch),
      m' ∈ dedupFrom ms seen →
      ms.find? (fun x => x.employeeId == m'.employeeId) = some m' := by
  intro ms
  induction ms with
  | nil => intro seen m' h; simp [dedupFrom] at h
  | cons m0 rest ih =>
    intro seen m' h
    simp only [dedupFrom] at h
    by_cases hmem : m0.employeeId ∈ seen
    · rw [if_pos hmem] at h
      have hne : ¬(m0.employeeId == m'.employeeId) = true := by
        intro hc
        have := dedupFrom_not_seen rest seen m' h
        exact this (by rwa [← eq_of_beq hc] at this ⊢)
      rw [@List.find?_cons_of_neg _ (fun x => x.employeeId == m'.employeeId) m0 rest hne]
      exact ih seen m' h
    · rw [if_neg hmem] at h
      rcases List.mem_cons.mp h with rfl | h'
      · rw [@List.find?_cons_of_pos _ (fun x => x.employeeId == m'.employeeId) m' rest (by simp)]
      · have hnotin := dedupFrom_not_seen rest (seen ++ [m0.employeeId]) m' h'
        have hne : ¬(m0.employeeId == m'.employeeId) = true := by
          intro hc
          exact hnotin (List.mem_append_right _ (by simp [eq_of_beq hc]))
        rw [@List.find?_cons_of_neg _ (fun x => x.employeeId == m'.employeeId) m0 rest hne]
        exact ih (seen ++ [m0.employeeId]) m' h'

/-- C6: the per-frame deduplication keeps at most one entry per employee
id, each kept entry is the first occurrence of its employee id in
detection order, and the kept entries appear in their original relative
(first-detection) order. -/
theorem c6_dedup_first_occurrence (ms : List FaceMatch) :
    (uniqueMatches ms).Sublist ms ∧
      ((uniqueMatches ms).map (fun m => m.employeeId)).Nodup ∧
      ∀ m' ∈ uniqueMatches ms,
        ms.find? (fun x => x.employeeId == m'.employeeId) = some m' := by
  rw [uniqueMatches_eq_dedupFrom]
  exact ⟨dedupFrom_sublist ms [], dedupFrom_keys_nodup ms [],
    fun m' hm' => dedupFrom_find ms [] m' hm'⟩

theorem c6_dedup_first_occurrence_witness :
    matchesEx.find? (fun x => x.employeeId == matchEx.employeeId) = some matchEx :=
  (c6_dedup_first_occurrence matchesEx).2.2 matchEx (by decide)

/-! ## Exporter lemmas -/

theorem mem_insertSorted (s : Session) :
    ∀ (l : Ledger) (a : Session), a ∈ insertSorted s l ↔ a = s ∨ a ∈ l := by
  intro l
  induction l with
  | nil => intro a; simp [insertSorted]
  | cons t ts ih =>
    intro a
    simp only [insertSorted]
    by_cases h : sessionLE s t
    · rw [if_pos h]
      simp [List.mem_cons]
    · rw [if_neg h]
      simp only [List.mem_cons, ih]
      tauto

theorem mem_sortSessions : ∀ (l : Ledger) (a : Session),
    a ∈ sortSessions l ↔ a ∈ l := by
  intro l
  induction l with
  | nil => intro a; simp [sortSessions]
  | cons t ts ih =>
    intro a
    simp [sortSessions, mem_insertSorted, ih, List.mem_cons]

/-- C7: in the generated report, the duration column is blank for an open
session and equals `time_out - time_in` rendered `HH:MM:SS` for a closed
one (assuming closed sessions are well formed, `time_in ≤ time_out`, as
produced by in-order punches). -/
theorem c7_duration_column (l : Ledger) (d : String) (hw : wellFormedB l = true) :
    ∀ r ∈ exportRows l d,
      (r.timeOut = "" ∧ r.duration = "") ∨
      ∃ tin tout, tin ≤ tout ∧ r.timeIn = fmtHMS tin ∧ r.timeOut = fmtHMS tout ∧
        r.duration = fmtHMS (tout - tin) := by
  intro r hr
  unfold exportRows at hr
  rcases List.mem_map.mp hr with ⟨s, hs, rfl⟩
  have hsl : s ∈ l := by
    have := (mem_sortSessions _ s).mp hs
    exact List.mem_of_mem_filter this
  have hwf := List.all_eq_true.mp hw s hsl
  rcases hto : s.timeOut with _ | o
  · left
    simp [rowOfSession, durationCell, hto]
  · right
    rw [hto] at hwf
    have hle : s.timeIn ≤ o := of_decide_eq_true hwf
    exact ⟨s.timeIn, o, hle, rfl, by simp [rowOfSession, hto],
      by simp [rowOfSession, durationCell, hto, hle]⟩

theorem c7_duration_column_witness :
    ((exportRows ledgerEx7 "2024-01-05").map fun r => r.duration) = ["08:00:00"] ∧
      ∀ r ∈ exportRows ledgerEx7 "2024-01-05",
        (r.timeOut = "" ∧ r.duration = "") ∨
        ∃ tin tout, tin ≤ tout ∧ r.timeIn = fmtHMS tin ∧ r.timeOut = fmtHMS tout ∧
          r.duration = fmtHMS (tout - tin) :=
  ⟨by decide, c7_duration_column ledgerEx7 "2024-01-05" (by decide)⟩

/-- C8: report generation is a deterministic full rebuild: writing the
artifact twice from the same ledger state equals writing it once, the
existing artifact for the date being overwritten, and the stored rows are
exactly the rows derived from the ledger. -/
theorem c8_report_idempotent (store : ArtifactStore) (l : Ledger) (d : String) :
    saveToExcel (saveToExcel store l d) l d = saveToExcel store l d ∧
      saveToExcel store l d (reportFileName d) = some (exportRows l d) := by
  constructor
  · funext f
    unfold saveToExcel
    by_cases h : f = reportFileName d <;> simp [h]
  · unfold saveToExcel
    simp

/-! ## Lemmas about the most-recent-session query -/

theorem mrStep_none (s : Session) : mrStep none s = some s := rfl

theorem mrStep_some (a s : Session) :
    mrStep (some a) s = some (laterByCreated a s) := rfl

theorem laterByCreated_cases (a s : Session) :
    laterByCreated a s = a ∨ laterByCreated a s = s := by
  unfold laterByCreated
  by_cases hle : a.createdAt ≤ s.createdAt
  · rw [if_pos hle]; exact Or.inr rfl
  · rw [if_neg hle]; exact Or.inl rfl

theorem laterByCreated_ub (a s : Session) :
    a.createdAt ≤ (laterByCreated a s).createdAt ∧
      s.createdAt ≤ (laterByCreated a s).createdAt := by
  unfold laterByCreated
  by_cases hle : a.createdAt ≤ s.createdAt
  · rw [if_pos hle]; exact ⟨hle, le_refl _⟩
  · rw [if_neg hle]; exact ⟨le_refl _, le_of_lt (lt_of_not_le hle)⟩

theorem mostRecent?_fold_mem :
    ∀ (xs : Ledger) (acc : Option Session) (r : Session),
      xs.foldl mrStep acc = some r → acc = some r ∨ r ∈ xs := by
  intro xs
  induction xs with
  | nil => intro acc r h; exact Or.inl h
  | cons s xs ih =>
    intro acc r h
    simp only [List.foldl_cons] at h
    rcases acc with _ | a
    · rw [mrStep_none] at h
      rcases ih (some s) r h with h' | h'
      · exact Or.inr (List.mem_cons.mpr (Or.inl (Option.some.inj h').symm))
      · exact Or.inr (List.mem_cons.mpr (Or.inr h'))
    · rw [mrStep_some] at h
      rcases ih (some (laterByCreated a s)) r h with h' | h'
      · have h2 := (Option.some.inj h').symm
        rcases laterByCreated_cases a s with hc | hc
        · rw [hc] at h2
          exact Or.inl (by rw [h2])
        · rw [hc] at h2
          exact Or.inr (List.mem_cons.mpr (Or.inl h2))
      · exact Or.inr (List.mem_cons.mpr (Or.inr h'))

theorem mostRecent?_fold_ub :
    ∀ (xs : Ledger) (acc : Option Session) (r : Session),
      xs.foldl mrStep acc = some r →
      (∀ t ∈ xs, t.createdAt ≤ r.createdAt) ∧
        (∀ a, acc = some a → a.createdAt ≤ r.createdAt) := by
  intro xs
  induction xs with
  | nil =>
    intro acc r h
    refine ⟨by simp, ?_⟩
    intro a ha
    rw [ha] at h
    rw [Option.some.inj h]
  | cons s xs ih =>
    intro acc r h
    simp only [List.foldl_cons] at h
    rcases acc with _ | a
    · rw [mrStep_none] at h
      obtain ⟨hxs, hacc⟩ := ih (some s) r h
      have hs := hacc s rfl
      refine ⟨?_, by simp⟩
      intro t ht
      rcases List.mem_cons.mp ht with rfl | ht2
      · exact hs
      · exact hxs t ht2
    · rw [mrStep_some] at h
      obtain ⟨hxs, hacc⟩ := ih (some (laterByCreated a s)) r h
      have hlater := hacc (laterByCreated a s) rfl
      constructor
      · intro t ht
        rcases List.mem_cons.mp ht with rfl | ht2
        · exact le_trans (laterByCreated_ub a t).2 hlater
        · exact hxs t ht2
      · intro a2 ha2
        cases ha2
        exact le_trans (laterByCreated_ub a s).1 hlater

theorem mostRecent?_mem {xs : Ledger} {r : Session} (h : mostRecent? xs = some r) :
    r ∈ xs := by
  unfold mostRecent? at h
  rcases mostRecent?_fold_mem xs none r h with h' | h'
  · cases h'
  · exact h'

theorem mostRecent?_ub {xs : Ledger} {r : Session} (h : mostRecent? xs = some r) :
    ∀ t ∈ xs, t.createdAt ≤ r.createdAt := by
  unfold mostRecent? at h
  exact (mostRecent?_fold_ub xs none r h).1

theorem mostRecent?_fold_ne_none :
    ∀ (xs : Ledger) (a : Session), xs.foldl mrStep (some a) ≠ none := by
  intro xs
  induction xs with
  | nil => intro a h; cases h
  | cons s xs ih =>
    intro a h
    simp only [List.foldl_cons, mrStep_some] at h
    exact ih (laterByCreated a s) h

theorem mostRecent?_eq_none {xs : Ledger} (h : mostRecent? xs = none) : xs = [] := by
  rcases xs with _ | ⟨s, xs⟩
  · rfl
  · unfold mostRecent? at h
    simp only [List.foldl_cons, mrStep_none] at h
    exact absurd h (mostRecent?_fold_ne_none xs s)

theorem mostRecent?_append_last {xs : Ledger} {s : Session}
    (h : ∀ t ∈ xs, t.createdAt ≤ s.createdAt) :
    mostRecent? (xs ++ [s]) = some s := by
  unfold mostRecent?
  rw [List.foldl_append]
  rcases hx : xs.foldl mrStep none with _ | a
  · rfl
  · have ha : a ∈ xs := by
      rcases mostRecent?_fold_mem xs none a hx with h' | h'
      · cases h'
      · exact h'
    simp only [List.foldl_cons, List.foldl_nil, mrStep_some]
    unfold laterByCreated
    rw [if_pos (h a ha)]

theorem mostRecent?_map {f : Session → Session}
    (hf : ∀ t, (f t).createdAt = t.createdAt) :
    ∀ (xs : Ledger) (acc : Option Session),
      (xs.map f).foldl mrStep (acc.map f) = (xs.foldl mrStep acc).map f := by
  intro xs
  induction xs with
  | nil => intro acc; simp
  | cons s xs ih =>
    intro acc
    simp only [List.map_cons, List.foldl_cons]
    rcases acc with _ | a
    · simp only [Option.map, mrStep_none]
      have := ih (some s)
      simpa using this
    · simp only [Option.map, mrStep_some]
      have hcomm : laterByCreated (f a) (f s) = f (laterByCreated a s) := by
        unfold laterByCreated
        rw [hf a, hf s]
        by_cases hle : a.createdAt ≤ s.createdAt
        · rw [if_pos hle, if_pos hle]
        · rw [if_neg hle, if_neg hle]
      rw [hcomm]
      have := ih (some (laterByCreated a s))
      simpa using this

theorem mostRecent?_map2 {f : Session → Session}
    (hf : ∀ t, (f t).createdAt = t.createdAt) (xs : Ledger) :
    mostRecent? (xs.map f) = (mostRecent? xs).map f := by
  unfold mostRecent?
  have := mostRecent?_map hf xs none
  simpa using this

/-! ## Claims C2, C3, C4 -/

/-- C2: when an employee has no session today, or the most recent one is
closed, the event appends a strictly new open session with
`time_in = now`, and the emitted record has `time_out = null` (under the
table's uniqueness constraint admitting the insert). -/
theorem c2_punch_in_creates_new_session (e : Event) (today : String)
    (now clk : Nat) (l : Ledger)
    (h : mostRecent? (filterED l e.employeeId today) = none ∨
      ∃ s, mostRecent? (filterED l e.employeeId today) = some s ∧ s.timeOut ≠ none)
    (hclash : hasClash l e.employeeId today now = false) :
    processEvent e today now clk l =
      .ok (l ++ [newSession e today now clk l.length],
        ⟨e.employeeId, e.name, today, now, none, "Present"⟩) ∧
      (newSession e today now clk l.length).timeIn = now ∧
      (newSession e today now clk l.length).timeOut = none := by
  refine ⟨?_, rfl, rfl⟩
  unfold processEvent
  rcases h with h | ⟨s, h, hto⟩
  · rw [h]
    unfold insertSession
    rw [hclash]
    simp
  · simp only [h]
    rw [if_neg hto]
    unfold insertSession
    rw [hclash]
    simp

theorem c2_punch_in_creates_new_session_witness :
    processEvent eventEx "2024-01-05" 1000 30 [sessA] =
      .ok ([sessA] ++ [newSession eventEx "2024-01-05" 1000 30 1],
        ⟨"E1", "Alice", "2024-01-05", 1000, none, "Present"⟩) ∧
      (newSession eventEx "2024-01-05" 1000 30 1).timeIn = 1000 ∧
      (newSession eventEx "2024-01-05" 1000 30 1).timeOut = none :=
  c2_punch_in_creates_new_session eventEx "2024-01-05" 1000 30 [sessA]
    (Or.inr ⟨sessA, by decide, by decide⟩) (by decide)

/-- C3: when the most recent session of the employee for today is open,
the event closes exactly that row (`time_out = now`), every other field of
every row is untouched, and the emitted record carries the original
`time_in` with the new `time_out`. -/
theorem c3_punch_out_updates_open_session (e : Event) (today : String)
    (now clk : Nat) (l : Ledger) (s : Session)
    (h : mostRecent? (filterED l e.employeeId today) = some s)
    (hopen : s.timeOut = none) :
    processEvent e today now clk l =
      .ok (l.map (closeSession s now),
        ⟨e.employeeId, e.name, today, s.timeIn, some now, "Present"⟩) ∧
      (∀ t, (closeSession s now t).rowId = t.rowId ∧
        (closeSession s now t).employeeId = t.employeeId ∧
        (closeSession s now t).name = t.name ∧
        (closeSession s now t).date = t.date ∧
        (closeSession s now t).timeIn = t.timeIn ∧
        (closeSession s now t).status = t.status ∧
        (closeSession s now t).createdAt = t.createdAt) ∧
      (∀ t, t.rowId ≠ s.rowId → closeSession s now t = t) ∧
      (∀ t, t.rowId = s.rowId → (closeSession s now t).timeOut = some now) := by
  refine ⟨?_, ?_, ?_, ?_⟩
  · unfold processEvent
    simp only [h]
    rw [if_pos hopen]
  · intro t
    unfold closeSession
    by_cases hid : t.rowId = s.rowId
    · rw [if_pos hid]
      exact ⟨rfl, rfl, rfl, rfl, rfl, rfl, rfl⟩
    · rw [if_neg hid]
      exact ⟨rfl, rfl, rfl, rfl, rfl, rfl, rfl⟩
  · intro t hid
    unfold closeSession
    rw [if_neg hid]
  · intro t hid
    unfold closeSession
    rw [if_pos hid]

theorem c3_punch_out_updates_open_session_witness :
    processEvent eventEx "2024-01-05" 61200 40 [sessOpen] =
      .ok ([sessOpen].map (closeSession sessOpen 61200),
        ⟨"E1", "Alice", "2024-01-05", 32400, some 61200, "Present"⟩) ∧
      (∀ t, (closeSession sessOpen 61200 t).rowId = t.rowId ∧
        (closeSession sessOpen 61200 t).employeeId = t.employeeId ∧
        (closeSession sessOpen 61200 t).name = t.name ∧
        (closeSession sessOpen 61200 t).date = t.date ∧
        (closeSession sessOpen 61200 t).timeIn = t.timeIn ∧
        (closeSession sessOpen 61200 t).status = t.status ∧
        (closeSession sessOpen 61200 t).createdAt = t.createdAt) ∧
      (∀ t, t.rowId ≠ sessOpen.rowId → closeSession sessOpen 61200 t = t) ∧
      (∀ t, t.rowId = sessOpen.rowId →
        (closeSession sessOpen 61200 t).timeOut = some 61200) :=
  c3_punch_out_updates_open_session eventEx "2024-01-05" 61200 40 [sessOpen]
    sessOpen (by decide) (by decide)

/-- C4: the session the transition decision uses is the one selected by
`ORDER BY created_at DESC LIMIT 1` — it maximises the creation timestamp
among the employee's sessions of the day, independently of `time_in`; on
the concrete two-session ledger whose `time_in` values are out of order
relative to creation order, the creation-latest (open, `time_in = 300`)
session is selected and punched out, although the other session has the
larger `time_in`. -/
theorem c4_most_recent_by_creation_order :
    (∀ (xs : Ledger) (s : Session), mostRecent? xs = some s →
      s ∈ xs ∧ ∀ t ∈ xs, t.createdAt ≤ s.createdAt) ∧
      (mostRecent? [sessA, sessB] = some sessB ∧
        sessB.timeIn < sessA.timeIn ∧ sessA.createdAt < sessB.createdAt ∧
        processEvent eventEx "2024-01-05" 1000 30 [sessA, sessB] =
          .ok ([sessA, { sessB with timeOut := some 1000 }],
            ⟨"E1", "Alice", "2024-01-05", 300, some 1000, "Present"⟩)) := by
  refine ⟨?_, by decide, by decide, by decide, rfl⟩
  intro xs s h
  exact ⟨mostRecent?_mem h, mostRecent?_ub h⟩

theorem c4_most_recent_by_creation_order_witness :
    sessB ∈ [sessA, sessB] ∧ ∀ t ∈ [sessA, sessB], t.createdAt ≤ sessB.createdAt :=
  c4_most_recent_by_creation_order.1 [sessA, sessB] sessB (by decide)

/-! ## Decimal rendering is injective (needed for file-name freshness) -/

theorem digitChar_sub_48 {d : Nat} (h : d < 10) :
    (Nat.digitChar d).toNat - 48 = d := by
  interval_cases d <;> decide

theorem valFrom_nil (a : Nat) : valFrom a [] = a := rfl

theorem valFrom_cons (a : Nat) (c : Char) (ds : List Char) :
    valFrom a (c :: ds) = valFrom (a * 10 + (c.toNat - 48)) ds := rfl

theorem toDigitsCore_valFrom :
    ∀ (f n : Nat) (ds : List Char), n < 10 ^ f →
      valFrom 0 (Nat.toDigitsCore 10 f n ds) = valFrom n ds := by
  intro f
  induction f with
  | zero =>
    intro n ds h
    interval_cases n
    rfl
  | succ f ih =>
    intro n ds h
    have hstep : Nat.toDigitsCore 10 (f + 1) n ds =
        if n / 10 = 0 then Nat.digitChar (n % 10) :: ds
        else Nat.toDigitsCore 10 f (n / 10) (Nat.digitChar (n % 10) :: ds) := rfl
    by_cases hdiv : n / 10 = 0
    · rw [hstep, if_pos hdiv, valFrom_cons,
        digitChar_sub_48 (Nat.mod_lt _ (by norm_num))]
      congr 1
      omega
    · have hlt : n / 10 < 10 ^ f := by
        have h2 : n < 10 * 10 ^ f := by
          have h10 : (10 : Nat) ^ (f + 1) = 10 ^ f * 10 := pow_succ 10 f
          omega
        exact Nat.div_lt_of_lt_mul h2
      rw [hstep, if_neg hdiv, ih (n / 10) _ hlt, valFrom_cons,
        digitChar_sub_48 (Nat.mod_lt _ (by norm_num))]
      congr 1
      omega

theorem valFrom_toDigits (n : Nat) : valFrom 0 (Nat.toDigits 10 n) = n := by
  unfold Nat.toDigits
  have h : n < 10 ^ (n + 1) :=
    lt_of_lt_of_le (Nat.lt_pow_self (by norm_num) n)
      (Nat.pow_le_pow_right (by norm_num) (Nat.le_succ n))
  rw [toDigitsCore_valFrom (n + 1) n [] h]
  rfl

theorem natRepr_injective : Function.Injective Nat.repr := by
  intro n m h
  have hdata : Nat.toDigits 10 n = Nat.toDigits 10 m := by
    have hd := congrArg String.data h
    simpa [Nat.repr, List.asString] using hd
  have hval := congrArg (valFrom 0) hdata
  rwa [valFrom_toDigits, valFrom_toDigits] at hval

theorem candidatePath_injective (base ext : String) :
    Function.Injective (candidatePath base ext) := by
  intro i j h
  unfold candidatePath at h
  have hu : ("_" : String).data.length = 1 := rfl
  by_cases hi : i = 0 <;> by_cases hj : j = 0
  · rw [hi, hj]
  · exfalso
    rw [if_pos hi, if_neg hj] at h
    have hd := congrArg String.data h
    simp only [String.data_append] at hd
    have hlen := congrArg List.length hd
    simp [List.length_append] at hlen
    omega
  · exfalso
    rw [if_neg hi, if_pos hj] at h
    have hd := congrArg String.data h
    simp only [String.data_append] at hd
    have hlen := congrArg List.length hd
    simp [List.length_append] at hlen
    omega
  · rw [if_neg hi, if_neg hj] at h
    have hd := congrArg String.data h
    simp only [String.data_append] at hd
    have h1 := List.append_cancel_right hd
    have h2 := List.append_cancel_left h1
    have hrepr : Nat.repr i = Nat.repr j := congrArg String.mk h2
    exact natRepr_injective hrepr

theorem freshPath_not_mem (files : List String) (base ext : String) :
    freshPath files base ext ∉ files := by
  unfold freshPath freshIndex
  rcases hfind : (List.range (files.length + 1)).find?
      (fun i => !(files.contains (candidatePath base ext i))) with _ | i
  · exfalso
    have hall : ∀ i ∈ List.range (files.length + 1),
        candidatePath base ext i ∈ files := by
      intro i hi
      have hni := List.find?_eq_none.mp hfind i hi
      simpa using hni
    have hnodup : ((List.range (files.length + 1)).map (candidatePath base ext)).Nodup :=
      List.Nodup.map (candidatePath_injective base ext) (List.nodup_range _)
    have hcard1 : ((List.range (files.length + 1)).map
        (candidatePath base ext)).toFinset.card = files.length + 1 := by
      rw [List.toFinset_card_of_nodup hnodup]
      simp
    have hsubf : ((List.range (files.length + 1)).map
        (candidatePath base ext)).toFinset ⊆ files.toFinset := by
      intro x hx
      rcases List.mem_map.mp (List.mem_toFinset.mp hx) with ⟨i, hi, rfl⟩
      exact List.mem_toFinset.mpr (hall i hi)
    have hcard2 := Finset.card_le_card hsubf
    have hcard3 := files.toFinset_card_le
    omega
  · have hp := List.find?_some hfind
    simp only [hfind]
    simpa using hp

/-! ## Claim C9 -/

/-- C9: registering with an image in which no face is detectable fails
with the descriptive message, creates no employee record and no cache
entry, and deletes the just-written face image, leaving the persistent
state exactly as before. -/
theorem c9_registration_no_face_rollback (decode : String → Option Nat)
    (extract : String → Option (List ℚ))
    (employeeIdRaw nameRaw departmentRaw positionRaw imageData : String)
    (st : RegState)
    (hextract : ∀ p, extract p = none)
    (hid : pyStrip employeeIdRaw ≠ "")
    (hname : pyStrip nameRaw ≠ "")
    (himg : imageData ≠ "")
    (hnew : st.employees.any
      (fun emp => emp.employeeId == pyStrip employeeIdRaw) = false)
    (hdecode : decode imageData ≠ none) :
    registerEmployee decode extract employeeIdRaw nameRaw departmentRaw
        positionRaw imageData st =
      (st, false, "No face detected. Please ensure face is clearly visible.") := by
  unfold registerEmployee
  rw [if_neg (by simp [hid, hname, himg])]
  rw [if_neg (by simp [hnew])]
  rcases hdec : decode imageData with _ | fr
  · exact absurd hdec hdecode
  · simp only [hextract]
    have hfresh := freshPath_not_mem st.files
      (pyStrip employeeIdRaw ++ "_" ++ sanitizeFilename (pyStrip nameRaw)) ".jpg"
    have hcontains : (st.files ++
        [freshPath st.files
          (pyStrip employeeIdRaw ++ "_" ++ sanitizeFilename (pyStrip nameRaw)) ".jpg"]).contains
        (freshPath st.files
          (pyStrip employeeIdRaw ++ "_" ++ sanitizeFilename (pyStrip nameRaw)) ".jpg") = true := by
      simp
    rw [if_pos hcontains]
    have herase : (st.files ++
        [freshPath st.files
          (pyStrip employeeIdRaw ++ "_" ++ sanitizeFilename (pyStrip nameRaw)) ".jpg"]).erase
        (freshPath st.files
          (pyStrip employeeIdRaw ++ "_" ++ sanitizeFilename (pyStrip nameRaw)) ".jpg") =
        st.files := by
      rw [List.erase_append_right _ hfresh, List.erase_cons_head]
      simp
    rw [herase]

theorem c9_registration_no_face_rollback_witness :
    registerEmployee (fun _ => some 1) (fun _ => none) "E1" "Alice" "" "" "img"
        regStEx =
      (regStEx, false, "No face detected. Please ensure face is clearly visible.") :=
  c9_registration_no_face_rollback (fun _ => some 1) (fun _ => none)
    "E1" "Alice" "" "" "img" regStEx (fun _ => rfl) (by decide) (by decide)
    (by decide) (by decide) (by decide)

/-! ## Ledger invariant: at most one open session per employee per day -/

theorem closeSession_rowId (s : Session) (now : Nat) (t : Session) :
    (closeSession s now t).rowId = t.rowId := by
  unfold closeSession
  by_cases h : t.rowId = s.rowId
  · rw [if_pos h]
  · rw [if_neg h]

theorem closeSession_employeeId (s : Session) (now : Nat) (t : Session) :
    (closeSession s now t).employeeId = t.employeeId := by
  unfold closeSession
  by_cases h : t.rowId = s.rowId
  · rw [if_pos h]
  · rw [if_neg h]

theorem closeSession_date (s : Session) (now : Nat) (t : Session) :
    (closeSession s now t).date = t.date := by
  unfold closeSession
  by_cases h : t.rowId = s.rowId
  · rw [if_pos h]
  · rw [if_neg h]

theorem closeSession_createdAt (s : Session) (now : Nat) (t : Session) :
    (closeSession s now t).createdAt = t.createdAt := by
  unfold closeSession
  by_cases h : t.rowId = s.rowId
  · rw [if_pos h]
  · rw [if_neg h]

theorem closeSession_of_ne (s : Session) (now : Nat) (t : Session)
    (h : t.rowId ≠ s.rowId) : closeSession s now t = t := by
  unfold closeSession
  rw [if_neg h]

theorem closeSession_timeOut_of_eq (s : Session) (now : Nat) (t : Session)
    (h : t.rowId = s.rowId) : (closeSession s now t).timeOut = some now := by
  unfold closeSession
  rw [if_pos h]

theorem mem_filterED {l : Ledger} {emp d : String} {s : Session} :
    s ∈ filterED l emp d ↔ s ∈ l ∧ s.employeeId = emp ∧ s.date = d := by
  simp [filterED, List.mem_filter]

theorem filterED_append (l l2 : Ledger) (emp d : String) :
    filterED (l ++ l2) emp d = filterED l emp d ++ filterED l2 emp d :=
  List.filter_append _ _

theorem filterED_map_closeSession (s : Session) (now : Nat) (l : Ledger)
    (emp d : String) :
    filterED (l.map (closeSession s now)) emp d =
      (filterED l emp d).map (closeSession s now) := by
  unfold filterED
  rw [List.filter_map]
  congr 1
  apply List.filter_congr
  intro t _
  simp [closeSession_employeeId, closeSession_date]

theorem rowIdOk_nodup {l : Ledger} (h : RowIdOk l) : l.Nodup := by
  rw [List.nodup_iff_injective_get]
  intro i j hij
  have hi : (l.get i).rowId = i.1 := h i.1 i.2
  have hj : (l.get j).rowId = j.1 := h j.1 j.2
  apply Fin.ext
  rw [← hi, ← hj, hij]

theorem openSessions_sublist (l : Ledger) (emp d : String) :
    (openSessions l emp d).Sublist l := by
  unfold openSessions filterED
  exact (List.filter_sublist _).trans (List.filter_sublist _)

theorem length_le_one_of_all_eq {α : Type} (xs : List α) (hnd : xs.Nodup)
    (hall : ∀ a ∈ xs, ∀ b ∈ xs, a = b) : xs.length ≤ 1 := by
  rcases xs with _ | ⟨a, _ | ⟨b, rest⟩⟩
  · simp
  · simp
  · exfalso
    have hab : a = b := hall a (by simp) b (by simp)
    rw [List.nodup_cons] at hnd
    exact hnd.1 (by rw [hab]; simp)

theorem inv_atMostOneOpen {l : Ledger} (hInv : LedgerInv l) : AtMostOneOpen l := by
  intro emp d
  apply length_le_one_of_all_eq _
    ((openSessions_sublist l emp d).nodup (rowIdOk_nodup hInv.1))
  intro a ha b hb
  unfold openSessions at ha hb
  obtain ⟨hamem, haopen⟩ := List.mem_filter.mp ha
  obtain ⟨hbmem, hbopen⟩ := List.mem_filter.mp hb
  have h1 := hInv.2 emp d a hamem (by simpa using haopen)
  have h2 := hInv.2 emp d b hbmem (by simpa using hbopen)
  rw [h1] at h2
  exact Option.some.inj h2

theorem insert_preserves (e : Event) (today : String) (now clk : Nat)
    (l l2 : Ledger) (r : AttendanceRecord)
    (hInv : LedgerInv l) (hclk : ClockLE clk l)
    (hnoopen : ∀ t ∈ filterED l e.employeeId today, t.timeOut ≠ none)
    (hok : insertSession e today now clk l = .ok (l2, r)) :
    LedgerInv l2 ∧ ClockLE clk l2 := by
  unfold insertSession at hok
  rcases hhc : hasClash l e.employeeId today now with _ | _
  · rw [if_neg (by simp [hhc])] at hok
    cases hok
    refine ⟨⟨?_, ?_⟩, ?_⟩
    · -- RowIdOk
      intro i hlt
      have hlen : i < l.length + 1 := by
        simpa using hlt
      by_cases hi : i < l.length
      · rw [List.get_append i hi]
        exact hInv.1 i hi
      · have hieq : i = l.length := by omega
        subst hieq
        rw [List.get_eq_getElem]
        rw [List.getElem_append_right (le_refl l.length)]
        simp [newSession]
    · -- OpenIsMostRecent
      intro emp d t ht hto
      rw [filterED_append] at ht ⊢
      by_cases hemp : e.employeeId = emp
      · by_cases hdd : today = d
        · subst hemp
          subst hdd
          have hnewmem : filterED [newSession e today now clk l.length]
              e.employeeId today = [newSession e today now clk l.length] := by
            simp [filterED, newSession]
          rw [hnewmem] at ht ⊢
          rcases List.mem_append.mp ht with htold | htnew
          · exact absurd hto (hnoopen t htold)
          · rcases List.mem_singleton.mp htnew with rfl
            apply mostRecent?_append_last
            intro u hu
            have humem : u ∈ l := (mem_filterED.mp hu).1
            exact hclk u humem
        · have hnewmem : filterED [newSession e today now clk l.length] emp d = [] := by
            simp [filterED, newSession, hdd]
          rw [hnewmem] at ht ⊢
          rw [List.append_nil] at ht ⊢
          exact hInv.2 emp d t ht hto
      · have hnewmem : filterED [newSession e today now clk l.length] emp d = [] := by
          simp [filterED, newSession, hemp]
        rw [hnewmem] at ht ⊢
        rw [List.append_nil] at ht ⊢
        exact hInv.2 emp d t ht hto
    · -- ClockLE
      intro t ht
      rcases List.mem_append.mp ht with h1 | h2
      · exact hclk t h1
      · rcases List.mem_singleton.mp h2 with rfl
        exact le_refl _
  · rw [if_pos (by simp [hhc])] at hok
    simp at hok

theorem update_preserves (s : Session) (now clk : Nat) (l : Ledger)
    (hInv : LedgerInv l) (hclk : ClockLE clk l) :
    LedgerInv (l.map (closeSession s now)) ∧ ClockLE clk (l.map (closeSession s now)) := by
  refine ⟨⟨?_, ?_⟩, ?_⟩
  · -- RowIdOk
    intro i hlt
    have hlt2 : i < l.length := by simpa using hlt
    rw [List.get_map]
    rw [closeSession_rowId]
    exact hInv.1 i hlt2
  · -- OpenIsMostRecent
    intro emp d t ht hto
    rw [filterED_map_closeSession] at ht ⊢
    rcases List.mem_map.mp ht with ⟨t0, ht0, rfl⟩
    by_cases hid : t0.rowId = s.rowId
    · exfalso
      rw [closeSession_timeOut_of_eq s now t0 hid] at hto
      cases hto
    · have hft0 : closeSession s now t0 = t0 := closeSession_of_ne s now t0 hid
      have hopen0 : t0.timeOut = none := by rwa [hft0] at hto
      have hmr0 := hInv.2 emp d t0 ht0 hopen0
      rw [mostRecent?_map2 (closeSession_createdAt s now) (filterED l emp d), hmr0]
      rfl
  · -- ClockLE
    intro t ht
    rcases List.mem_map.mp ht with ⟨t0, ht0, rfl⟩
    rw [closeSession_createdAt]
    exact hclk t0 ht0

theorem processEvent_preserves (e : Event) (today : String) (now clk : Nat)
    (l l2 : Ledger) (r : AttendanceRecord)
    (hInv : LedgerInv l) (hclk : ClockLE clk l)
    (hok : processEvent e today now clk l = .ok (l2, r)) :
    LedgerInv l2 ∧ ClockLE clk l2 := by
  unfold processEvent at hok
  rcases hmr : mostRecent? (filterED l e.employeeId today) with _ | s
  · rw [hmr] at hok
    have hempty := mostRecent?_eq_none hmr
    refine insert_preserves e today now clk l l2 r hInv hclk ?_ hok
    rw [hempty]
    intro t ht
    simp at ht
  · rw [hmr] at hok
    simp only [] at hok
    by_cases hopen : s.timeOut = none
    · rw [if_pos hopen] at hok
      cases hok
      exact update_preserves s now clk l hInv hclk
    · rw [if_neg hopen] at hok
      refine insert_preserves e today now clk l l2 r hInv hclk ?_ hok
      intro t ht hto
      have hmt := hInv.2 e.employeeId today t ht hto
      rw [hmr] at hmt
      cases Option.some.inj hmt
      exact hopen hto

theorem markAttendanceE_preserves :
    ∀ (events : List Event) (today : String) (now clk : Nat) (l l2 : Ledger)
      (rs : List AttendanceRecord), LedgerInv l → ClockLE clk l →
      markAttendanceE events today now clk l = .ok (l2, rs) →
      LedgerInv l2 ∧ ClockLE clk l2 := by
  intro events
  induction events with
  | nil =>
    intro today now clk l l2 rs hInv hclk hok
    unfold markAttendanceE at hok
    cases hok
    exact ⟨hInv, hclk⟩
  | cons e es ih =>
    intro today now clk l l2 rs hInv hclk hok
    unfold markAttendanceE at hok
    rcases hpe : processEvent e today now clk l with u | ⟨l1, r⟩
    · rw [hpe] at hok
      simp at hok
    · rw [hpe] at hok
      dsimp only [] at hok
      obtain ⟨hInv1, hclk1⟩ := processEvent_preserves e today now clk l l1 r hInv hclk hpe
      rcases hrec : markAttendanceE es today now clk l1 with u | ⟨l3, rs3⟩
      · rw [hrec] at hok
        simp at hok
      · rw [hrec] at hok
        cases hok
        exact ih today now clk l1 _ _ hInv1 hclk1 hrec

theorem markAttendance_preserves (events : List Event) (today : String)
    (now clk : Nat) (l : Ledger) (hInv : LedgerInv l) (hclk : ClockLE clk l) :
    LedgerInv (markAttendance events today now clk l).1 := by
  unfold markAttendance
  rcases hres : markAttendanceE events today now clk l with u | ⟨l2, rs⟩
  · exact hInv
  · exact (markAttendanceE_preserves events today now clk l l2 rs hInv hclk hres).1

theorem reachable_inv {l : Ledger} (h : Reachable l) : LedgerInv l := by
  induction h with
  | empty =>
    refine ⟨?_, ?_⟩
    · intro i hlt
      exact absurd hlt (by simp)
    · intro emp d s hs
      exact absurd hs (by simp [filterED])
  | step events today now clk l hr hclk ih =>
    exact markAttendance_preserves events today now clk l ih hclk

/-- C5: every ledger state reachable from the empty table through
`mark_attendance` batches (with the nondecreasing `created_at` clock the
database supplies) has at most one open session per employee per day, and
processing any further batch preserves this. -/
theorem c5_at_most_one_open_session (l : Ledger) (hreach : Reachable l) :
    AtMostOneOpen l ∧
      ∀ (events : List Event) (today : String) (now clk : Nat), ClockLE clk l →
        AtMostOneOpen (markAttendance events today now clk l).1 := by
  constructor
  · exact inv_atMostOneOpen (reachable_inv hreach)
  · intro events today now clk hclk
    exact inv_atMostOneOpen
      (reachable_inv (Reachable.step events today now clk l hreach hclk))

theorem c5_at_most_one_open_session_witness :
    AtMostOneOpen (markAttendance [eventEx] "2024-01-05" 540 100 []).1 :=
  (c5_at_most_one_open_session (markAttendance [eventEx] "2024-01-05" 540 100 []).1
    (Reachable.step [eventEx] "2024-01-05" 540 100 [] Reachable.empty
      (fun s hs => absurd hs (List.not_mem_nil s)))).1

end FaceAttendance
